import Mathlib

/-!
Verification of the `vtk` point-of-sale peripheral client (src/vtk.rs).

Bytes are modelled as `Nat` (machine `u8`/`u16` arithmetic is written with
explicit `% 256` / `% 65536` where the source casts).  `Vec<u8>` becomes
`List Nat`, the `HashMap<TlvKey, Vec<u8>>` becomes an association list with
insert-replaces-key semantics, and the TCP socket becomes an abstract handle
`Option Nat` with the outcomes of the I/O effects passed in explicitly.
-/

/-- The closed tag enumeration `TlvKey` of src/vtk.rs (discriminants 0x01..0x14,
0x02 absent). -/
inductive TlvKey where
  | MsgName
  | OperationNum
  | AmountInMinorCurrencyUnit
  | KeepaliveIntervalInSecs
  | OperationTimeoutInSecs
  | EventName
  | EventNum
  | ProductId
  | QrCodeData
  | TcpIpDestantion
  | OutgoingByteCounter
  | SimpleDataBlock
  | ConfirmableDataBlock
  | ProductName
  | PosManagementData
  | LocalTime
  | SysInfo
  | BankingReceipt
  | DisplayTimeInMs
deriving DecidableEq

/-- The numeric discriminant of each tag (`k as u8` in the source). -/
def TlvKey.toByte : TlvKey → Nat
  | .MsgName => 0x01
  | .OperationNum => 0x03
  | .AmountInMinorCurrencyUnit => 0x04
  | .KeepaliveIntervalInSecs => 0x05
  | .OperationTimeoutInSecs => 0x06
  | .EventName => 0x07
  | .EventNum => 0x08
  | .ProductId => 0x09
  | .QrCodeData => 0x0A
  | .TcpIpDestantion => 0x0B
  | .OutgoingByteCounter => 0x0C
  | .SimpleDataBlock => 0x0D
  | .ConfirmableDataBlock => 0x0E
  | .ProductName => 0x0F
  | .PosManagementData => 0x10
  | .LocalTime => 0x11
  | .SysInfo => 0x12
  | .BankingReceipt => 0x13
  | .DisplayTimeInMs => 0x14

/-- All nineteen tags, used to model `num::FromPrimitive::from_u8`. -/
def TlvKey.allKeys : List TlvKey :=
  [.MsgName, .OperationNum, .AmountInMinorCurrencyUnit, .KeepaliveIntervalInSecs,
   .OperationTimeoutInSecs, .EventName, .EventNum, .ProductId, .QrCodeData,
   .TcpIpDestantion, .OutgoingByteCounter, .SimpleDataBlock, .ConfirmableDataBlock,
   .ProductName, .PosManagementData, .LocalTime, .SysInfo, .BankingReceipt,
   .DisplayTimeInMs]

/-- `num::FromPrimitive::from_u8` for `TlvKey`: the tag whose discriminant is
`t`, if any. -/
def TlvKey.fromByte (t : Nat) : Option TlvKey :=
  TlvKey.allKeys.find? (fun k => k.toByte == t)

/-- The record set `Tlv`: `HashMap<TlvKey, Vec<u8>>` modelled as an association
list.  A list with `Nodup` keys represents a map; iteration order of the
`HashMap` is arbitrary, so statements quantify over the list order. -/
structure Tlv where
  data : List (TlvKey × List Nat)
deriving DecidableEq

/-- `HashMap::insert`: replace any existing binding of `k`, add `(k, v)`. -/
def mapInsert (k : TlvKey) (v : List Nat) (m : List (TlvKey × List Nat)) :
    List (TlvKey × List Nat) :=
  m.filter (fun p => p.1 != k) ++ [(k, v)]

/-- `HashMap::get`: the value bound to `k`, if any. -/
def mapGet (m : List (TlvKey × List Nat)) (k : TlvKey) : Option (List Nat) :=
  (m.find? (fun p => p.1 == k)).map (fun p => p.2)

def Tlv.new : Tlv := ⟨[]⟩

/-- `Tlv::set_bin` (and `set_str`, strings being their UTF-8 bytes). -/
def Tlv.set_bin (t : Tlv) (k : TlvKey) (d : List Nat) : Tlv :=
  ⟨mapInsert k d t.data⟩

/-- `Tlv::get_bin`. -/
def Tlv.get_bin (t : Tlv) (k : TlvKey) : Option (List Nat) :=
  mapGet t.data k

/-- `Tlv::deser_one`: one record at offset `b`.  The source computes
`raw.len() - begin` in `usize`; here the subtraction is truncated `Nat`
subtraction, which agrees with the source whenever `b ≤ raw.length`
(`deser_oneChecked` below accounts for the divergent case). -/
def Tlv.deser_one (raw : List Nat) (b : Nat) : Option (Nat × List Nat × Nat) :=
  if raw.length - b < 2 then none
  else if b + raw.getD (b + 1) 0 + 2 > raw.length then none
  else some (raw.getD b 0, (raw.drop (b + 2)).take (raw.getD (b + 1) 0),
             raw.getD (b + 1) 0 + 2)

/-- The scanning loop of `Tlv::deserialize`, made structurally recursive on a
fuel bound (a fuel of `raw.length + 1` is always enough: each step consumes at
least two bytes). -/
def Tlv.deserLoop : Nat → List Nat → Nat → List (TlvKey × List Nat) →
    List (TlvKey × List Nat)
  | 0, _, _, data => data
  | fuel + 1, raw, i, data =>
    match Tlv.deser_one raw i with
    | some (k, v, len) =>
      match TlvKey.fromByte k with
      | some key => Tlv.deserLoop fuel raw (i + len) (mapInsert key v data)
      | none => Tlv.deserLoop fuel raw (i + len) data
    | none => data

/-- `Tlv::deserialize` (the spec's `decodeAll`). -/
def Tlv.deserialize (raw : List Nat) : Tlv :=
  ⟨Tlv.deserLoop (raw.length + 1) raw 0 []⟩

/-- `Tlv::serialize` (the spec's `encode`): tag byte, length byte
(`v.len() as u8`, hence `% 256`), value bytes, per entry in order. -/
def Tlv.serialize (t : Tlv) : List Nat :=
  t.data.flatMap (fun p => p.1.toByte :: p.2.length % 256 :: p.2)

/-- `deser_one` with the source's partiality made explicit: when `b` exceeds
`raw.length`, the `usize` subtraction `raw.len() - begin` underflows (or, with
wrapping, `raw[begin]` is out of bounds) and the program aborts; this is the
`.error` case.  For `b ≤ raw.length` every index computation of the source is
in bounds and the result is that of `deser_one`. -/
def Tlv.deser_oneChecked (raw : List Nat) (b : Nat) :
    Except Unit (Option (Nat × List Nat × Nat)) :=
  if raw.length < b then .error ()
  else .ok (Tlv.deser_one raw b)

/-- The scanning loop with abort-tracking: `.error` if any step would abort or
the fuel runs out before the scan finishes. -/
def Tlv.deserLoopChecked : Nat → List Nat → Nat → List (TlvKey × List Nat) →
    Except Unit (List (TlvKey × List Nat))
  | 0, _, _, _ => .error ()
  | fuel + 1, raw, i, data =>
    match Tlv.deser_oneChecked raw i with
    | .error e => .error e
    | .ok (some (k, v, len)) =>
      match TlvKey.fromByte k with
      | some key => Tlv.deserLoopChecked fuel raw (i + len) (mapInsert key v data)
      | none => Tlv.deserLoopChecked fuel raw (i + len) data
    | .ok none => .ok data

/-- A wire stream of raw records: for each `(tag, value)` pair, the tag byte,
the length byte, then the value. -/
def encodeRaw (l : List (Nat × List Nat)) : List Nat :=
  l.flatMap (fun p => p.1 :: p.2.length % 256 :: p.2)

/-- What the decoding loop does record-wise: known tags are inserted (later
occurrences overwriting earlier ones), unknown tags are dropped. -/
def foldDecode (l : List (Nat × List Nat)) (acc : List (TlvKey × List Nat)) :
    List (TlvKey × List Nat) :=
  l.foldl (fun a p =>
    match TlvKey.fromByte p.1 with
    | some k => mapInsert k p.2 a
    | none => a) acc

/-- The value of the last record in `l` whose tag byte is `tb`, if any. -/
def lastValue : List (Nat × List Nat) → Nat → Option (List Nat)
  | [], _ => none
  | p :: rest, tb =>
    match lastValue rest tb with
    | some v => some v
    | none => if p.1 = tb then some p.2 else none

/-! ## Framing and the byte-level part of `Vtk::send` / `Vtk::receive` -/

/-- The payload serialized by `Vtk::send` (lines 162-164): the caller's record
set with `MsgName` set to `msg` (overwriting any prior binding), serialized. -/
def Vtk.sendPayload (msg : List Nat) (t : Tlv) : List Nat :=
  (t.set_bin TlvKey.MsgName msg).serialize

/-- The full frame written by `Vtk::send` (lines 164-172): the `u16` length
`payload.len() + 2` in big-endian (`to_be_bytes`), the magic `0x96 0xFB`, then
the payload. -/
def Vtk.sendBuf (msg : List Nat) (t : Tlv) : List Nat :=
  let tlv := Vtk.sendPayload msg t
  let len := (tlv.length + 2) % 65536
  len / 256 % 256 :: len % 256 :: 0x96 :: 0xFB :: tlv

/-- The spec's `encodeFrame(payload)`: big-endian 16-bit `len(payload)+2`, the
magic bytes, then the payload (written from the spec's words, to be compared
with `Vtk.sendBuf`). -/
def encodeFrameSpec (p : List Nat) : List Nat :=
  ((p.length + 2) % 65536) / 256 :: (p.length + 2) % 256 :: 0x96 :: 0xFB :: p

/-- The 512-byte read buffer of `Vtk::receive` after a read that placed the
`recv` bytes at its front: the rest keeps its `[0; 512]` initialisation. -/
def Vtk.recvBuffer (recv : List Nat) : List Nat :=
  recv ++ List.replicate (512 - recv.length) 0

/-- The byte-level part of `Vtk::receive` (lines 181-185), as a function of the
bytes the single `read` call produced: fewer than 9 bytes is the short-frame
error; otherwise `buf[4..]` — bytes 4..512 of the whole buffer, not just of
what was read — is deserialized. -/
def Vtk.receiveParse (recv : List Nat) : Except String Tlv :=
  if recv.length < 9 then .error "too few bytes received"
  else .ok (Tlv.deserialize ((Vtk.recvBuffer recv).drop 4))

/-! ## The connection state machine

`TcpStream` is abstracted to a handle `Option Nat`; each fallible I/O effect
(`TcpStream::connect`, `set_write_timeout`, `write_all`, `set_read_timeout`,
`read`, `shutdown`) has its outcome passed in as an `Except` argument. -/

/-- The `Vtk` struct: host and port configuration plus the optional socket. -/
structure VtkM where
  ip : List Nat
  port : Nat
  tcp : Option Nat
deriving DecidableEq

/-- `Vtk::new`. -/
def VtkM.new (ip : List Nat) (port : Nat) : VtkM := ⟨ip, port, none⟩

/-- `Vtk::is_connected`. -/
def VtkM.is_connected (v : VtkM) : Bool := v.tcp.isSome

/-- `Vtk::connect` (lines 120-126): no-op when a socket is present; otherwise
take the outcome `conn` of `TcpStream::connect` (storing the socket on
success), then the outcome `wtmo` of `set_write_timeout`.  Returns the new
state and `some` error message when the call fails. -/
def VtkM.connectM (v : VtkM) (conn : Except String Nat) (wtmo : Except String Unit) :
    VtkM × Option String :=
  match v.tcp with
  | some _ => (v, none)
  | none =>
    match conn with
    | .error e => (v, some e)
    | .ok s =>
      let v1 : VtkM := { v with tcp := some s }
      match wtmo with
      | .ok _ => (v1, none)
      | .error e => (v1, some e)

/-- `Vtk::disconnect` (lines 128-135): `take` the socket and, if one was
present, shut it down, its outcome `sd` discarded by `.ignore()`.  The error
component is the call's result: always `none` — `disconnect` returns `()`. -/
def VtkM.disconnectM (v : VtkM) (sd : Except String Unit) : VtkM × Option String :=
  match v.tcp with
  | some _ => ({ v with tcp := none }, none)
  | none => ({ v with tcp := none }, none)

/-- The state effect of `Vtk::send` (lines 162-175): auto-`connect`, then
`write_all` with outcome `wr`.  The bytes written are `Vtk.sendBuf msg t`. -/
def VtkM.sendOp (v : VtkM) (msg : List Nat) (t : Tlv) (conn : Except String Nat)
    (wtmo : Except String Unit) (wr : Except String Unit) : VtkM × Option String :=
  match VtkM.connectM v conn wtmo with
  | (v1, some e) => (v1, some e)
  | (v1, none) =>
    (v1, match wr with
         | .ok _ => none
         | .error e => some e)

/-- The state effect of `Vtk::receive` (lines 177-186): auto-`connect`,
`set_read_timeout` with outcome `rtmo`, a single `read` with outcome `rd`,
then the byte-level `Vtk.receiveParse`. -/
def VtkM.receiveOp (v : VtkM) (conn : Except String Nat) (wtmo : Except String Unit)
    (rtmo : Except String Unit) (rd : Except String (List Nat)) :
    VtkM × Except String Tlv :=
  match VtkM.connectM v conn wtmo with
  | (v1, some e) => (v1, .error e)
  | (v1, none) =>
    match rtmo with
    | .error e => (v1, .error e)
    | .ok _ =>
      match rd with
      | .error e => (v1, .error e)
      | .ok recv => (v1, Vtk.receiveParse recv)

/-- The outcomes of every I/O effect one `idle`/`disable` exchange can touch. -/
structure ExchEnv where
  sd1 : Except String Unit
  sendConn : Except String Nat
  sendWtmo : Except String Unit
  wr : Except String Unit
  recvConn : Except String Nat
  recvWtmo : Except String Unit
  rtmo : Except String Unit
  rd : Except String (List Nat)
  sd2 : Except String Unit

/-- `"IDL"` as UTF-8 bytes. -/
def idlBytes : List Nat := [73, 68, 76]

/-- `"DIS"` as UTF-8 bytes. -/
def disBytes : List Nat := [68, 73, 83]

/-- `Vtk::idle` (lines 137-147): disconnect, send `MsgName="IDL"` merged with
the caller's fields, receive (result discarded, errors propagate), disconnect
again. -/
def VtkM.idle (v : VtkM) (add : Option Tlv) (io : ExchEnv) : VtkM × Option String :=
  match ((v.disconnectM io.sd1).1).sendOp idlBytes
      (match add with
       | some t => t
       | none => Tlv.new) io.sendConn io.sendWtmo io.wr with
  | (v2, some e) => (v2, some e)
  | (v2, none) =>
    match v2.receiveOp io.recvConn io.recvWtmo io.rtmo io.rd with
    | (v3, .error e) => (v3, some e)
    | (v3, .ok _) => ((v3.disconnectM io.sd2).1, none)

/-- `Vtk::disable` (lines 149-154): disconnect, send `MsgName="DIS"` with an
empty record set, receive — and no final disconnect. -/
def VtkM.disable (v : VtkM) (io : ExchEnv) : VtkM × Option String :=
  match ((v.disconnectM io.sd1).1).sendOp disBytes Tlv.new io.sendConn io.sendWtmo io.wr with
  | (v2, some e) => (v2, some e)
  | (v2, none) =>
    match v2.receiveOp io.recvConn io.recvWtmo io.rtmo io.rd with
    | (v3, .error e) => (v3, some e)
    | (v3, .ok _) => (v3, none)

/-! ## Codec helper lemmas -/

theorem TlvKey.fromByte_toByte (k : TlvKey) : TlvKey.fromByte k.toByte = some k := by
  cases k <;> rfl

theorem TlvKey.toByte_of_fromByte {t : Nat} {k : TlvKey}
    (h : TlvKey.fromByte t = some k) : k.toByte = t := by
  have hp := List.find?_some h
  simpa using hp

theorem Tlv.deser_one_bound {raw : List Nat} {i k len : Nat} {v : List Nat}
    (h : Tlv.deser_one raw i = some (k, v, len)) :
    2 ≤ len ∧ i + len ≤ raw.length := by
  unfold Tlv.deser_one at h
  split at h
  · exact absurd h (by simp)
  · split at h
    · exact absurd h (by simp)
    · rename_i h1 h2
      obtain ⟨-, -, h3⟩ := Prod.mk.injEq .. ▸ Option.some.inj h
      omega

theorem Tlv.deser_one_none_of_le {raw : List Nat} {i : Nat}
    (h : raw.length ≤ i) : Tlv.deser_one raw i = none := by
  unfold Tlv.deser_one
  rw [if_pos (by omega)]

theorem Tlv.deser_one_append (pre rest : List Nat) :
    Tlv.deser_one (pre ++ rest) pre.length = Tlv.deser_one rest 0 := by
  have h1 : (pre ++ rest).length - pre.length = rest.length := by simp
  have hg : ∀ j : Nat, (pre ++ rest).getD (pre.length + j) 0 = rest.getD j 0 := by
    intro j
    rw [List.getD_eq_getElem?_getD, List.getD_eq_getElem?_getD,
        List.getElem?_append_right (by omega), Nat.add_sub_cancel_left]
  have hg0 : (pre ++ rest).getD pre.length 0 = rest.getD 0 0 := by
    simpa using hg 0
  have hg1 : (pre ++ rest).getD (pre.length + 1) 0 = rest.getD 1 0 := hg 1
  have hd : (pre ++ rest).drop (pre.length + 2) = rest.drop 2 := by
    rw [← List.drop_drop, List.drop_left]
  simp only [Tlv.deser_one, h1, hg0, hg1, hd, List.length_append, Nat.sub_zero,
    Nat.zero_add, Nat.add_sub_cancel_left]
  by_cases h2 : rest.length < 2
  · rw [if_pos h2, if_pos h2]
  · rw [if_neg h2, if_neg h2]
    by_cases h3 : rest.getD 1 0 + 2 > rest.length
    · rw [if_pos h3,
        if_pos (show pre.length + rest.getD 1 0 + 2 > pre.length + rest.length by omega)]
    · rw [if_neg h3,
        if_neg (show ¬ pre.length + rest.getD 1 0 + 2 > pre.length + rest.length by omega)]

theorem Tlv.deserLoop_succ (fuel : Nat) (raw : List Nat) (i : Nat)
    (data : List (TlvKey × List Nat)) :
    Tlv.deserLoop (fuel + 1) raw i data =
      match Tlv.deser_one raw i with
      | some (k, v, len) =>
        match TlvKey.fromByte k with
        | some key => Tlv.deserLoop fuel raw (i + len) (mapInsert key v data)
        | none => Tlv.deserLoop fuel raw (i + len) data
      | none => data := rfl

theorem Tlv.deserLoop_congr (raw : List Nat) :
    ∀ f1 f2 i data, raw.length ≤ i + f1 → raw.length ≤ i + f2 →
      Tlv.deserLoop f1 raw i data = Tlv.deserLoop f2 raw i data := by
  intro f1
  induction f1 with
  | zero =>
    intro f2 i data h1 _
    have hn := @Tlv.deser_one_none_of_le raw i (by omega)
    cases f2 with
    | zero => rfl
    | succ f2 => simp [Tlv.deserLoop, hn]
  | succ f1 ih =>
    intro f2 i data h1 h2
    cases f2 with
    | zero =>
      have hn := @Tlv.deser_one_none_of_le raw i (by omega)
      simp [Tlv.deserLoop, hn]
    | succ f2 =>
      rw [Tlv.deserLoop_succ, Tlv.deserLoop_succ]
      cases h : Tlv.deser_one raw i with
      | none => rfl
      | some r =>
        obtain ⟨k, v, len⟩ := r
        obtain ⟨hl2, hle⟩ := Tlv.deser_one_bound h
        show (match TlvKey.fromByte k with
          | some key => Tlv.deserLoop f1 raw (i + len) (mapInsert key v data)
          | none => Tlv.deserLoop f1 raw (i + len) data) =
          (match TlvKey.fromByte k with
          | some key => Tlv.deserLoop f2 raw (i + len) (mapInsert key v data)
          | none => Tlv.deserLoop f2 raw (i + len) data)
        cases TlvKey.fromByte k with
        | some key => exact ih f2 (i + len) (mapInsert key v data) (by omega) (by omega)
        | none => exact ih f2 (i + len) data (by omega) (by omega)

theorem Tlv.deserLoopChecked_succ (fuel : Nat) (raw : List Nat) (i : Nat)
    (data : List (TlvKey × List Nat)) :
    Tlv.deserLoopChecked (fuel + 1) raw i data =
      match Tlv.deser_oneChecked raw i with
      | .error e => .error e
      | .ok (some (k, v, len)) =>
        match TlvKey.fromByte k with
        | some key => Tlv.deserLoopChecked fuel raw (i + len) (mapInsert key v data)
        | none => Tlv.deserLoopChecked fuel raw (i + len) data
      | .ok none => .ok data := rfl

/-- The abort-tracking loop never aborts and agrees with the total loop, as
long as the scan starts in bounds and the fuel exceeds the bytes left: every
scan offset stays `≤ raw.length`, so no index computation of the source is out
of bounds. -/
theorem Tlv.deserLoopChecked_ok (raw : List Nat) :
    ∀ fuel i data, i ≤ raw.length → raw.length - i < fuel →
      Tlv.deserLoopChecked fuel raw i data = .ok (Tlv.deserLoop fuel raw i data) := by
  intro fuel
  induction fuel with
  | zero => intro i data _ h2; omega
  | succ fuel ih =>
    intro i data h1 h2
    rw [Tlv.deserLoopChecked_succ, Tlv.deserLoop_succ]
    have hchk : Tlv.deser_oneChecked raw i = .ok (Tlv.deser_one raw i) := by
      unfold Tlv.deser_oneChecked
      rw [if_neg (by omega)]
    rw [hchk]
    cases h : Tlv.deser_one raw i with
    | none => rfl
    | some r =>
      obtain ⟨k, v, len⟩ := r
      obtain ⟨hl2, hle⟩ := Tlv.deser_one_bound h
      show (match TlvKey.fromByte k with
        | some key => Tlv.deserLoopChecked fuel raw (i + len) (mapInsert key v data)
        | none => Tlv.deserLoopChecked fuel raw (i + len) data) =
        .ok (match TlvKey.fromByte k with
        | some key => Tlv.deserLoop fuel raw (i + len) (mapInsert key v data)
        | none => Tlv.deserLoop fuel raw (i + len) data)
      cases TlvKey.fromByte k with
      | some key => exact ih (i + len) (mapInsert key v data) (by omega) (by omega)
      | none => exact ih (i + len) data (by omega) (by omega)

/-! ## Characterising the decoder on well-formed record streams -/

theorem Tlv.serialize_eq_encodeRaw (t : Tlv) :
    t.serialize = encodeRaw (t.data.map (fun p => (p.1.toByte, p.2))) := by
  unfold Tlv.serialize encodeRaw
  rw [List.flatMap_map]

/-- `deser_one` at the start of a well-formed record whose value fits a length
byte reads exactly that record. -/
theorem Tlv.deser_one_record (t : Nat) (v rest : List Nat) (hv : v.length ≤ 255) :
    Tlv.deser_one (t :: v.length % 256 :: (v ++ rest)) 0 =
      some (t, v, v.length + 2) := by
  have hm : v.length % 256 = v.length := Nat.mod_eq_of_lt (by omega)
  unfold Tlv.deser_one
  rw [hm]
  have hlen : (t :: v.length :: (v ++ rest)).length = v.length + rest.length + 2 := by
    simp
  rw [if_neg (by rw [hlen]; omega)]
  have hg1 : (t :: v.length :: (v ++ rest)).getD (0 + 1) 0 = v.length := rfl
  rw [hg1, if_neg (by rw [hlen]; omega)]
  have hg0 : (t :: v.length :: (v ++ rest)).getD 0 0 = t := rfl
  rw [hg0]
  have hdrop : (t :: v.length :: (v ++ rest)).drop (0 + 2) = v ++ rest := rfl
  rw [hdrop, List.take_left' rfl]

/-- The scanning loop applied to (the tail of) a stream of well-formed records
folds over the records: `foldDecode`. -/
theorem Tlv.deserLoop_encodeRaw :
    ∀ (l : List (Nat × List Nat)) (pre : List Nat) (acc : List (TlvKey × List Nat))
      (fuel : Nat), (encodeRaw l).length ≤ fuel →
      (∀ p ∈ l, p.2.length ≤ 255) →
      Tlv.deserLoop fuel (pre ++ encodeRaw l) pre.length acc = foldDecode l acc := by
  intro l
  induction l with
  | nil =>
    intro pre acc fuel _ _
    have hn : Tlv.deser_one (pre ++ encodeRaw []) pre.length = none := by
      rw [Tlv.deser_one_append]
      rfl
    cases fuel with
    | zero => rfl
    | succ fuel =>
      rw [Tlv.deserLoop_succ, hn]
      rfl
  | cons hd tl ih =>
    intro pre acc fuel hfuel hv
    obtain ⟨t, v⟩ := hd
    have hv0 : v.length ≤ 255 := hv (t, v) (List.mem_cons_self _ _)
    have henc : encodeRaw ((t, v) :: tl) = t :: v.length % 256 :: (v ++ encodeRaw tl) := by
      simp [encodeRaw]
    have hlen : (encodeRaw ((t, v) :: tl)).length =
        v.length + (encodeRaw tl).length + 2 := by
      rw [henc]; simp
    have hfuel2 : 2 ≤ fuel := by omega
    obtain ⟨fuel, rfl⟩ : ∃ f, fuel = f + 1 := ⟨fuel - 1, by omega⟩
    have h1 : Tlv.deser_one (pre ++ encodeRaw ((t, v) :: tl)) pre.length =
        some (t, v, v.length + 2) := by
      rw [Tlv.deser_one_append, henc, Tlv.deser_one_record t v _ hv0]
    rw [Tlv.deserLoop_succ, h1]
    have hre : pre ++ encodeRaw ((t, v) :: tl) =
        (pre ++ t :: v.length % 256 :: v) ++ encodeRaw tl := by
      rw [henc]; simp
    have hplen : pre.length + (v.length + 2) = (pre ++ t :: v.length % 256 :: v).length := by
      simp
    have hstep : ∀ a : List (TlvKey × List Nat),
        Tlv.deserLoop fuel (pre ++ encodeRaw ((t, v) :: tl)) (pre.length + (v.length + 2)) a =
        foldDecode tl a := by
      intro a
      rw [hre, hplen]
      exact ih (pre ++ t :: v.length % 256 :: v) a fuel (by omega)
        (fun p hp => hv p (List.mem_cons_of_mem _ hp))
    show (match TlvKey.fromByte t with
      | some key => Tlv.deserLoop fuel (pre ++ encodeRaw ((t, v) :: tl))
          (pre.length + (v.length + 2)) (mapInsert key v acc)
      | none => Tlv.deserLoop fuel (pre ++ encodeRaw ((t, v) :: tl))
          (pre.length + (v.length + 2)) acc) = foldDecode ((t, v) :: tl) acc
    have hfold : foldDecode ((t, v) :: tl) acc =
        foldDecode tl (match TlvKey.fromByte t with
          | some k => mapInsert k v acc
          | none => acc) := rfl
    rw [hfold]
    cases TlvKey.fromByte t with
    | some key => exact hstep (mapInsert key v acc)
    | none => exact hstep acc

/-! ## Map-level lemmas -/

theorem mem_mapInsert {kv : TlvKey × List Nat} {k : TlvKey} {v : List Nat}
    {m : List (TlvKey × List Nat)} (h : kv ∈ mapInsert k v m) :
    kv = (k, v) ∨ kv ∈ m := by
  unfold mapInsert at h
  rcases List.mem_append.mp h with h1 | h1
  · exact Or.inr (List.mem_of_mem_filter h1)
  · exact Or.inl (List.mem_singleton.mp h1)

theorem mapInsert_of_not_mem_keys {k : TlvKey} {v : List Nat}
    {m : List (TlvKey × List Nat)} (h : k ∉ m.map Prod.fst) :
    mapInsert k v m = m ++ [(k, v)] := by
  unfold mapInsert
  congr 1
  apply List.filter_eq_self.mpr
  intro p hp
  have : p.1 ≠ k := fun he => h (he ▸ List.mem_map_of_mem Prod.fst hp)
  simpa using this

theorem foldl_mapInsert_nodup :
    ∀ (l acc : List (TlvKey × List Nat)), (l.map Prod.fst).Nodup →
      (∀ x ∈ l.map Prod.fst, x ∉ acc.map Prod.fst) →
      l.foldl (fun a p => mapInsert p.1 p.2 a) acc = acc ++ l := by
  intro l
  induction l with
  | nil => intro acc _ _; simp
  | cons hd tl ih =>
    intro acc hnd hdisj
    obtain ⟨k, v⟩ := hd
    have hnotacc : k ∉ acc.map Prod.fst := hdisj k (by simp)
    have hins : mapInsert k v acc = acc ++ [(k, v)] := mapInsert_of_not_mem_keys hnotacc
    have hnd' : (tl.map Prod.fst).Nodup := (List.nodup_cons.mp (by simpa using hnd)).2
    have hknotl : k ∉ tl.map Prod.fst := (List.nodup_cons.mp (by simpa using hnd)).1
    have hdisj' : ∀ x ∈ tl.map Prod.fst, x ∉ (acc ++ [(k, v)]).map Prod.fst := by
      intro x hx
      rw [List.map_append]
      intro hmem
      rcases List.mem_append.mp hmem with h1 | h1
      · exact hdisj x (by simp [hx]) h1
      · simp at h1
        exact hknotl (h1 ▸ hx)
    show tl.foldl (fun a p => mapInsert p.1 p.2 a) (mapInsert k v acc) = acc ++ (k, v) :: tl
    rw [hins, ih (acc ++ [(k, v)]) hnd' hdisj', List.append_assoc]
    rfl

theorem foldDecode_map_toByte :
    ∀ (l : List (TlvKey × List Nat)) (acc : List (TlvKey × List Nat)),
      foldDecode (l.map (fun p => (p.1.toByte, p.2))) acc =
        l.foldl (fun a p => mapInsert p.1 p.2 a) acc := by
  intro l
  induction l with
  | nil => intro acc; rfl
  | cons hd tl ih =>
    intro acc
    obtain ⟨k, v⟩ := hd
    show foldDecode (tl.map (fun p => (p.1.toByte, p.2)))
      (match TlvKey.fromByte k.toByte with
       | some key => mapInsert key v acc
       | none => acc) = tl.foldl (fun a p => mapInsert p.1 p.2 a) (mapInsert k v acc)
    rw [TlvKey.fromByte_toByte k]
    exact ih (mapInsert k v acc)

/-- The decoder applied to a serialized record set, record-wise. -/
theorem Tlv.deserialize_serialize_data (S : Tlv)
    (hlen : ∀ p ∈ S.data, p.2.length ≤ 255) :
    Tlv.deserialize (Tlv.serialize S) =
      ⟨S.data.foldl (fun a p => mapInsert p.1 p.2 a) []⟩ := by
  have hser := Tlv.serialize_eq_encodeRaw S
  have hv : ∀ p ∈ S.data.map (fun p => (p.1.toByte, p.2)), p.2.length ≤ 255 := by
    intro p hp
    obtain ⟨q, hq, rfl⟩ := List.mem_map.mp hp
    exact hlen q hq
  unfold Tlv.deserialize
  rw [hser]
  have h0 : encodeRaw (S.data.map (fun p => (p.1.toByte, p.2))) =
      [] ++ encodeRaw (S.data.map (fun p => (p.1.toByte, p.2))) := rfl
  rw [Tlv.mk.injEq]
  calc Tlv.deserLoop ((encodeRaw (S.data.map (fun p => (p.1.toByte, p.2)))).length + 1)
        (encodeRaw (S.data.map (fun p => (p.1.toByte, p.2)))) 0 []
      = Tlv.deserLoop ((encodeRaw (S.data.map (fun p => (p.1.toByte, p.2)))).length + 1)
        ([] ++ encodeRaw (S.data.map (fun p => (p.1.toByte, p.2))))
        (List.length ([] : List Nat)) [] := by rw [← h0]; rfl
    _ = foldDecode (S.data.map (fun p => (p.1.toByte, p.2))) [] :=
        Tlv.deserLoop_encodeRaw _ [] [] _ (by omega) hv
    _ = S.data.foldl (fun a p => mapInsert p.1 p.2 a) [] := foldDecode_map_toByte S.data []

theorem TlvKey.toByte_inj {a b : TlvKey} (h : a.toByte = b.toByte) : a = b := by
  have h2 := TlvKey.fromByte_toByte a
  rw [h, TlvKey.fromByte_toByte b] at h2
  exact (Option.some.inj h2).symm

theorem find?_filter_of_imp :
    ∀ (m : List (TlvKey × List Nat)) (p q : TlvKey × List Nat → Bool),
      (∀ a, q a = true → p a = true) →
      (m.filter p).find? q = m.find? q := by
  intro m
  induction m with
  | nil => intro p q _; rfl
  | cons a t ih =>
    intro p q himp
    cases hq : q a with
    | true =>
      have hp := himp a hq
      rw [List.filter_cons_of_pos hp, List.find?_cons_of_pos _ hq,
        List.find?_cons_of_pos _ hq]
    | false =>
      cases hp : p a with
      | true =>
        rw [List.filter_cons_of_pos hp, List.find?_cons_of_neg _ (by simp [hq]),
          List.find?_cons_of_neg _ (by simp [hq]), ih p q himp]
      | false =>
        rw [List.filter_cons_of_neg (by simp [hp]),
          List.find?_cons_of_neg _ (by simp [hq]), ih p q himp]

theorem mapGet_mapInsert (k k' : TlvKey) (v : List Nat)
    (m : List (TlvKey × List Nat)) :
    mapGet (mapInsert k v m) k' = if k' = k then some v else mapGet m k' := by
  unfold mapGet mapInsert
  by_cases h : k' = k
  · subst h
    have hnone : (m.filter (fun p => p.1 != k')).find? (fun p => p.1 == k') = none := by
      apply List.find?_eq_none.mpr
      intro p hp hpk
      have h1 := List.of_mem_filter hp
      simp at h1 hpk
      exact h1 hpk
    rw [if_pos rfl, List.find?_append, hnone]
    simp
  · have hkk : (k == k') = false := beq_eq_false_iff_ne.mpr (fun he => h he.symm)
    have h2 : ([(k, v)].find? (fun p => p.1 == k')) = none := by
      rw [List.find?_cons_of_neg _ (by simp [hkk])]
      rfl
    have h3 : ∀ a : TlvKey × List Nat, (a.1 == k') = true → (a.1 != k) = true := by
      intro a ha
      have hak : a.1 = k' := by simpa using ha
      simp [hak]
      exact h
    rw [if_neg h, List.find?_append, h2, find?_filter_of_imp m _ _ h3]
    cases m.find? (fun p => p.1 == k') <;> rfl

theorem mapGet_foldDecode :
    ∀ (l : List (Nat × List Nat)) (acc : List (TlvKey × List Nat)) (key : TlvKey),
      mapGet (foldDecode l acc) key =
        match lastValue l key.toByte with
        | some v => some v
        | none => mapGet acc key := by
  intro l
  induction l with
  | nil => intro acc key; rfl
  | cons hd rest ih =>
    intro acc key
    obtain ⟨t, v⟩ := hd
    have hfd : foldDecode ((t, v) :: rest) acc =
        foldDecode rest (match TlvKey.fromByte t with
          | some k => mapInsert k v acc
          | none => acc) := rfl
    have hlv : lastValue ((t, v) :: rest) key.toByte =
        (match lastValue rest key.toByte with
         | some w => some w
         | none => if t = key.toByte then some v else none) := rfl
    rw [hfd, ih, hlv]
    cases hrest : lastValue rest key.toByte with
    | some w => rfl
    | none =>
      show (mapGet (match TlvKey.fromByte t with
        | some k => mapInsert k v acc
        | none => acc) key) =
        (match (if t = key.toByte then some v else none : Option (List Nat)) with
         | some w => some w
         | none => mapGet acc key)
      cases hfb : TlvKey.fromByte t with
      | some k' =>
        rw [mapGet_mapInsert k' key v acc]
        by_cases htb : t = key.toByte
        · have hke : key = k' := by
            have h3 := hfb
            rw [htb, TlvKey.fromByte_toByte] at h3
            exact Option.some.inj h3
          rw [if_pos htb, if_pos hke]
        · have hke : key ≠ k' := by
            intro he
            exact htb (by rw [← TlvKey.toByte_of_fromByte hfb, he])
          rw [if_neg hke, if_neg htb]
      | none =>
        have htb : t ≠ key.toByte := by
          intro he
          rw [he, TlvKey.fromByte_toByte] at hfb
          exact Option.noConfusion hfb
        rw [if_neg htb]

/-- The decoder on a whole well-formed raw record stream. -/
theorem Tlv.deserialize_encodeRaw (l : List (Nat × List Nat))
    (hv : ∀ p ∈ l, p.2.length ≤ 255) :
    Tlv.deserialize (encodeRaw l) = ⟨foldDecode l []⟩ := by
  unfold Tlv.deserialize
  rw [Tlv.mk.injEq]
  calc Tlv.deserLoop ((encodeRaw l).length + 1) (encodeRaw l) 0 []
      = Tlv.deserLoop ((encodeRaw l).length + 1) ([] ++ encodeRaw l)
        (List.length ([] : List Nat)) [] := rfl
    _ = foldDecode l [] := Tlv.deserLoop_encodeRaw l [] [] _ (by omega) hv

theorem Tlv.deserLoop_none {raw : List Nat} {i : Nat}
    (h : Tlv.deser_one raw i = none) (fuel : Nat)
    (acc : List (TlvKey × List Nat)) : Tlv.deserLoop fuel raw i acc = acc := by
  cases fuel with
  | zero => rfl
  | succ fuel => rw [Tlv.deserLoop_succ, h]

/-- `deser_one` at the start of a strict prefix of a record returns `none`:
the truncated record is discarded. -/
theorem Tlv.deser_one_take_record (t : Nat) (v rest : List Nat) (m : Nat)
    (hv : v.length ≤ 255) (hm : m < v.length + 2) :
    Tlv.deser_one ((t :: v.length % 256 :: (v ++ rest)).take m) 0 = none := by
  have hmod : v.length % 256 = v.length := Nat.mod_eq_of_lt (by omega)
  match m, hm with
  | 0, _ => rfl
  | 1, _ => rfl
  | m + 2, hm =>
    rw [hmod, List.take_cons_succ, List.take_cons_succ]
    unfold Tlv.deser_one
    have hlen : (t :: v.length :: (v ++ rest).take m).length =
        ((v ++ rest).take m).length + 2 := by simp
    have htl : ((v ++ rest).take m).length ≤ m := by
      simpa using List.length_take_le m (v ++ rest)
    rw [if_neg (by omega)]
    have hg1 : (t :: v.length :: (v ++ rest).take m).getD (0 + 1) 0 = v.length := rfl
    rw [hg1, if_pos (by omega)]

/-- Every entry produced by decoding a (possibly truncated) prefix of a
well-formed record stream is either inherited from the accumulator or one of
the stream's records, with its exact value. -/
theorem Tlv.deserLoop_take_subset :
    ∀ (l : List (Nat × List Nat)) (pre : List Nat) (acc : List (TlvKey × List Nat))
      (fuel m : Nat),
      ((encodeRaw l).take m).length ≤ fuel →
      (∀ p ∈ l, p.2.length ≤ 255) →
      ∀ kv ∈ Tlv.deserLoop fuel (pre ++ (encodeRaw l).take m) pre.length acc,
        kv ∈ acc ∨ (kv.1.toByte, kv.2) ∈ l := by
  intro l
  induction l with
  | nil =>
    intro pre acc fuel m _ _ kv hkv
    have hnil : (encodeRaw ([] : List (Nat × List Nat))).take m = [] := by
      simp [encodeRaw]
    rw [hnil] at hkv
    have hnone : Tlv.deser_one (pre ++ []) pre.length = none := by
      rw [Tlv.deser_one_append]
      rfl
    rw [Tlv.deserLoop_none hnone] at hkv
    exact Or.inl hkv
  | cons hd tl ih =>
    intro pre acc fuel m hfuel hv kv hkv
    obtain ⟨t, v⟩ := hd
    have hv0 : v.length ≤ 255 := hv (t, v) (List.mem_cons_self _ _)
    have henc : encodeRaw ((t, v) :: tl) = t :: v.length % 256 :: (v ++ encodeRaw tl) := by
      simp [encodeRaw]
    by_cases hcase : m < v.length + 2
    · have hnone : Tlv.deser_one (pre ++ (encodeRaw ((t, v) :: tl)).take m)
          pre.length = none := by
        rw [Tlv.deser_one_append, henc]
        exact Tlv.deser_one_take_record t v (encodeRaw tl) m hv0 hcase
      rw [Tlv.deserLoop_none hnone] at hkv
      exact Or.inl hkv
    · have hmod : v.length % 256 = v.length := Nat.mod_eq_of_lt (by omega)
      have htake : (encodeRaw ((t, v) :: tl)).take m =
          t :: v.length % 256 :: (v ++ (encodeRaw tl).take (m - (v.length + 2))) := by
        rw [henc, hmod]
        obtain ⟨m', rfl⟩ : ∃ m', m = m' + 2 := ⟨m - 2, by omega⟩
        rw [List.take_cons_succ, List.take_cons_succ, List.take_append_eq_append_take,
          List.take_of_length_le (by omega)]
        have : m' + 2 - (v.length + 2) = m' - v.length := by omega
        rw [this]
      have h1 : Tlv.deser_one (pre ++ (encodeRaw ((t, v) :: tl)).take m) pre.length =
          some (t, v, v.length + 2) := by
        rw [Tlv.deser_one_append, htake]
        exact Tlv.deser_one_record t v _ hv0
      have hlentake : ((encodeRaw ((t, v) :: tl)).take m).length =
          v.length + 2 + ((encodeRaw tl).take (m - (v.length + 2))).length := by
        rw [htake]; simp; omega
      obtain ⟨f, rfl⟩ : ∃ f, fuel = f + 1 := ⟨fuel - 1, by omega⟩
      rw [Tlv.deserLoop_succ, h1] at hkv
      have hre : pre ++ (encodeRaw ((t, v) :: tl)).take m =
          (pre ++ t :: v.length % 256 :: v) ++ (encodeRaw tl).take (m - (v.length + 2)) := by
        rw [htake]; simp
      have hplen : pre.length + (v.length + 2) =
          (pre ++ t :: v.length % 256 :: v).length := by simp
      have hstep : ∀ a : List (TlvKey × List Nat),
          kv ∈ Tlv.deserLoop f (pre ++ (encodeRaw ((t, v) :: tl)).take m)
            (pre.length + (v.length + 2)) a →
          kv ∈ a ∨ (kv.1.toByte, kv.2) ∈ tl := by
        intro a ha
        rw [hre, hplen] at ha
        exact ih (pre ++ t :: v.length % 256 :: v) a f (m - (v.length + 2))
          (by omega) (fun p hp => hv p (List.mem_cons_of_mem _ hp)) kv ha
      revert hkv
      show kv ∈ (match TlvKey.fromByte t with
        | some key => Tlv.deserLoop f (pre ++ (encodeRaw ((t, v) :: tl)).take m)
            (pre.length + (v.length + 2)) (mapInsert key v acc)
        | none => Tlv.deserLoop f (pre ++ (encodeRaw ((t, v) :: tl)).take m)
            (pre.length + (v.length + 2)) acc) →
        kv ∈ acc ∨ (kv.1.toByte, kv.2) ∈ (t, v) :: tl
      cases hfb : TlvKey.fromByte t with
      | some key =>
        intro hkv
        rcases hstep (mapInsert key v acc) hkv with hin | hin
        · rcases mem_mapInsert hin with he | he
          · refine Or.inr ?_
            rw [he]
            have : key.toByte = t := TlvKey.toByte_of_fromByte hfb
            rw [this]
            exact List.mem_cons_self _ _
          · exact Or.inl he
        · exact Or.inr (List.mem_cons_of_mem _ hin)
      | none =>
        intro hkv
        rcases hstep acc hkv with hin | hin
        · exact Or.inl hin
        · exact Or.inr (List.mem_cons_of_mem _ hin)

/-! ## State-machine lemmas -/

theorem VtkM.disconnectM_fst_tcp (v : VtkM) (s : Except String Unit) :
    (VtkM.disconnectM v s).1.tcp = none := by
  unfold VtkM.disconnectM
  cases v.tcp <;> rfl

theorem VtkM.connectM_ok_isSome {v : VtkM} {c : Except String Nat}
    {w : Except String Unit} (h : (VtkM.connectM v c w).2 = none) :
    (VtkM.connectM v c w).1.tcp.isSome = true := by
  cases htcp : v.tcp with
  | some s => simp [VtkM.connectM, htcp]
  | none =>
    cases c with
    | error e => simp [VtkM.connectM, htcp] at h
    | ok s =>
      cases w with
      | ok u => simp [VtkM.connectM, htcp]
      | error e => simp [VtkM.connectM, htcp] at h

theorem VtkM.connectM_of_isSome {v : VtkM} (h : v.tcp.isSome = true)
    (c : Except String Nat) (w : Except String Unit) :
    VtkM.connectM v c w = (v, none) := by
  unfold VtkM.connectM
  cases htcp : v.tcp with
  | some s => rfl
  | none => rw [htcp] at h; simp at h

theorem VtkM.sendOp_ok_isSome {v : VtkM} {msg : List Nat} {t : Tlv}
    {c : Except String Nat} {w wr : Except String Unit}
    (h : (VtkM.sendOp v msg t c w wr).2 = none) :
    (VtkM.sendOp v msg t c w wr).1.tcp.isSome = true := by
  unfold VtkM.sendOp at h ⊢
  rcases hc : VtkM.connectM v c w with ⟨v1, e1⟩
  rw [hc] at h
  cases e1 with
  | some e =>
    have h' : (some e : Option String) = none := h
    exact Option.noConfusion h'
  | none =>
    have h2 := @VtkM.connectM_ok_isSome v c w (by rw [hc])
    rw [hc] at h2
    exact h2

theorem VtkM.receiveOp_fst (v : VtkM) (c : Except String Nat)
    (w rt : Except String Unit) (rd : Except String (List Nat)) :
    (VtkM.receiveOp v c w rt rd).1 = (VtkM.connectM v c w).1 := by
  unfold VtkM.receiveOp
  rcases hc : VtkM.connectM v c w with ⟨v1, e1⟩
  cases e1 with
  | some e => rfl
  | none =>
    cases rt with
    | error e => rfl
    | ok u =>
      cases rd with
      | error e => rfl
      | ok recv => rfl

/-! ## Claim theorems -/

/-- **C1**: for every record set whose stored values are at most 255 bytes
long, decoding the encoding gives the record set back — the same tag-to-value
entries whatever entry order the encoder used (the `data` list stands for the
`HashMap` in an arbitrary iteration order; `Nodup` keys is the map
invariant). -/
theorem claim_tlv_roundtrip (S : Tlv) (hnd : (S.data.map Prod.fst).Nodup)
    (hlen : ∀ p ∈ S.data, p.2.length ≤ 255) :
    Tlv.deserialize (Tlv.serialize S) = S := by
  rw [Tlv.deserialize_serialize_data S hlen,
    foldl_mapInsert_nodup S.data [] hnd (by intro x _ hx; simp at hx)]
  show Tlv.mk ([] ++ S.data) = S
  rw [List.nil_append]

theorem claim_tlv_roundtrip_witness :
    Tlv.deserialize (Tlv.serialize
      ⟨[(TlvKey.MsgName, [73, 68, 76]), (TlvKey.QrCodeData, [97, 98, 99])]⟩) =
      ⟨[(TlvKey.MsgName, [73, 68, 76]), (TlvKey.QrCodeData, [97, 98, 99])]⟩ :=
  claim_tlv_roundtrip _ (by decide) (by decide)

/-- **C2**: the frame built by `send` is exactly the big-endian 16-bit value
`len(payload)+2`, the magic bytes `0x96 0xFB`, then the payload; for the
record set `{MsgName:"IDL", QrCodeData:"abc"}` (either entry order) the
payload is the stated 10 bytes and the whole frame the stated 14 bytes. -/
theorem claim_send_frame :
    (∀ (msg : List Nat) (t : Tlv),
      Vtk.sendBuf msg t = encodeFrameSpec (Vtk.sendPayload msg t)) ∧
    Tlv.serialize ⟨[(TlvKey.MsgName, [73, 68, 76]), (TlvKey.QrCodeData, [97, 98, 99])]⟩ =
      [0x01, 3, 73, 68, 76, 0x0A, 3, 97, 98, 99] ∧
    Tlv.serialize ⟨[(TlvKey.QrCodeData, [97, 98, 99]), (TlvKey.MsgName, [73, 68, 76])]⟩ =
      [0x0A, 3, 97, 98, 99, 0x01, 3, 73, 68, 76] ∧
    encodeFrameSpec [0x01, 3, 73, 68, 76, 0x0A, 3, 97, 98, 99] =
      [0, 12, 0x96, 0xFB, 0x01, 3, 73, 68, 76, 0x0A, 3, 97, 98, 99] ∧
    encodeFrameSpec [0x0A, 3, 97, 98, 99, 0x01, 3, 73, 68, 76] =
      [0, 12, 0x96, 0xFB, 0x0A, 3, 97, 98, 99, 0x01, 3, 73, 68, 76] ∧
    (encodeFrameSpec [0x01, 3, 73, 68, 76, 0x0A, 3, 97, 98, 99]).length = 14 := by
  refine ⟨?_, by decide, by decide, by decide, by decide, by decide⟩
  intro msg t
  show ((Vtk.sendPayload msg t).length + 2) % 65536 / 256 % 256 ::
      ((Vtk.sendPayload msg t).length + 2) % 65536 % 256 :: 0x96 :: 0xFB ::
      Vtk.sendPayload msg t = encodeFrameSpec (Vtk.sendPayload msg t)
  have h1 : ((Vtk.sendPayload msg t).length + 2) % 65536 / 256 % 256 =
      ((Vtk.sendPayload msg t).length + 2) % 65536 / 256 := by
    apply Nat.mod_eq_of_lt
    have := Nat.mod_lt ((Vtk.sendPayload msg t).length + 2)
      (show 0 < 65536 by omega)
    omega
  have h2 : ((Vtk.sendPayload msg t).length + 2) % 65536 % 256 =
      ((Vtk.sendPayload msg t).length + 2) % 256 :=
    Nat.mod_mod_of_dvd _ (by omega)
  rw [h1, h2]
  rfl

set_option maxRecDepth 10000 in
/-- **C3 counterexample**: the claim says `receive` decodes exactly the bytes
4..n that were read.  For the 9 read bytes `[0,7,0x96,0xFB, 0x0A,0x05,97,98,99]`
the code decodes bytes 4..512 of the zero-filled buffer instead: the truncated
`QrCodeData` record is completed by buffer zeros and decoded as
`[97,98,99,0,0]`, while decoding only the 5 read payload bytes yields the
empty set. -/
theorem claim_receive_exact_bytes_cex :
    Vtk.receiveParse [0, 7, 0x96, 0xFB, 0x0A, 0x05, 97, 98, 99] ≠
      Except.ok (Tlv.deserialize
        (List.drop 4 [0, 7, 0x96, 0xFB, 0x0A, 0x05, 97, 98, 99])) := by
  intro h
  have h1 : Vtk.receiveParse [0, 7, 0x96, 0xFB, 0x0A, 0x05, 97, 98, 99] =
      Except.ok (Tlv.deserialize
        ((Vtk.recvBuffer [0, 7, 0x96, 0xFB, 0x0A, 0x05, 97, 98, 99]).drop 4)) := by
    unfold Vtk.receiveParse
    rw [if_neg (by decide)]
  rw [h1] at h
  have h2 := Except.ok.inj h
  exact absurd h2 (by decide)

/-- **C3 amended**: for a read of `n` bytes (`9 ≤ n ≤ 512`), the returned
record set is `decodeAll` of the received bytes 4..n *followed by the
`512 - n` zero bytes of the untouched buffer tail* — the code slices
`buf[4..]` over the whole fixed buffer, not `buf[4..n]`. -/
theorem claim_receive_decodes_padded (recv : List Nat) (h9 : 9 ≤ recv.length)
    (h512 : recv.length ≤ 512) :
    Vtk.receiveParse recv =
      Except.ok (Tlv.deserialize
        (recv.drop 4 ++ List.replicate (512 - recv.length) 0)) := by
  unfold Vtk.receiveParse Vtk.recvBuffer
  rw [if_neg (by omega), List.drop_append_of_le_length (by omega)]

theorem claim_receive_decodes_padded_witness :
    Vtk.receiveParse [0, 7, 0x96, 0xFB, 0x0A, 0x05, 97, 98, 99] =
      Except.ok (Tlv.deserialize
        (List.drop 4 [0, 7, 0x96, 0xFB, 0x0A, 0x05, 97, 98, 99] ++
          List.replicate 503 0)) :=
  claim_receive_decodes_padded _ (by decide) (by decide)

/-- **C4**: the byte-level part of `receive` fails — with exactly the
short-frame error, producing no record set — if and only if the single read
returned fewer than 9 bytes; with 9 or more bytes it returns a decoded record
set. -/
theorem claim_receive_short_frame (recv : List Nat) :
    (recv.length < 9 →
      Vtk.receiveParse recv = .error "too few bytes received") ∧
    (9 ≤ recv.length → Vtk.receiveParse recv =
      .ok (Tlv.deserialize ((Vtk.recvBuffer recv).drop 4))) ∧
    ((∃ e, Vtk.receiveParse recv = .error e) ↔ recv.length < 9) := by
  refine ⟨?_, ?_, ?_, ?_⟩
  · intro h
    unfold Vtk.receiveParse
    rw [if_pos h]
  · intro h
    unfold Vtk.receiveParse
    rw [if_neg (by omega)]
  · rintro ⟨e, he⟩
    by_contra hge
    unfold Vtk.receiveParse at he
    rw [if_neg hge] at he
    exact Except.noConfusion he
  · intro h
    refine ⟨"too few bytes received", ?_⟩
    unfold Vtk.receiveParse
    rw [if_pos h]

theorem claim_receive_short_frame_witness :
    Vtk.receiveParse [0, 0, 0x96, 0xFB, 1, 1, 65, 1] = .error "too few bytes received" :=
  (claim_receive_short_frame [0, 0, 0x96, 0xFB, 1, 1, 65, 1]).1 (by decide)

/-- **C5**: `decodeAll` is total on arbitrary byte input: the abort-tracking
scan returns `.ok` of the decoder's result (no index computation of
`deser_one` leaves bounds — the scan offset never exceeds the input length),
and giving the loop any more fuel than `decodeAll` uses changes nothing (the
scan genuinely terminates rather than being cut off). -/
theorem claim_decode_total (raw : List Nat) :
    Tlv.deserLoopChecked (raw.length + 1) raw 0 [] =
      .ok ((Tlv.deserialize raw).data) ∧
    ∀ fuel, raw.length < fuel →
      Tlv.deserLoop fuel raw 0 [] = (Tlv.deserialize raw).data := by
  constructor
  · exact Tlv.deserLoopChecked_ok raw (raw.length + 1) 0 [] (by omega) (by omega)
  · intro fuel hf
    exact Tlv.deserLoop_congr raw fuel (raw.length + 1) 0 [] (by omega) (by omega)

theorem claim_decode_total_witness :
    Tlv.deserLoopChecked 4 [1, 2, 3] 0 [] = .ok ((Tlv.deserialize [1, 2, 3]).data) ∧
    Tlv.deserLoop 40 [1, 2, 3] 0 [] = (Tlv.deserialize [1, 2, 3]).data :=
  ⟨(claim_decode_total [1, 2, 3]).1, (claim_decode_total [1, 2, 3]).2 40 (by decide)⟩

/-- **C6**: on a stream of well-formed records, `decodeAll` folds record-wise:
a record with an unknown tag byte is dropped while the offset still advances
past it, so every well-formed known-tag record after it is recovered with its
exact value, and for a repeated known tag the last occurrence's value is the
one stored (`lastValue`). -/
theorem claim_unknown_tag_skip (l : List (Nat × List Nat))
    (hv : ∀ p ∈ l, p.2.length ≤ 255) :
    Tlv.deserialize (encodeRaw l) = ⟨foldDecode l []⟩ ∧
    ∀ key : TlvKey,
      (Tlv.deserialize (encodeRaw l)).get_bin key = lastValue l key.toByte := by
  have h1 := Tlv.deserialize_encodeRaw l hv
  refine ⟨h1, ?_⟩
  intro key
  rw [h1]
  show mapGet (foldDecode l []) key = lastValue l key.toByte
  rw [mapGet_foldDecode]
  cases lastValue l key.toByte <;> rfl

theorem claim_unknown_tag_skip_witness :
    (Tlv.deserialize
      (encodeRaw [(0x02, [5]), (0x0A, [97]), (0x01, [65]), (0x01, [66])])).get_bin
        TlvKey.MsgName =
      lastValue [(0x02, [5]), (0x0A, [97]), (0x01, [65]), (0x01, [66])]
        TlvKey.MsgName.toByte :=
  (claim_unknown_tag_skip _ (by decide)).2 TlvKey.MsgName

/-- **C7**: decoding any prefix of the encoding of a record set (values at
most 255 bytes) yields only entries of the original set, each with its exact
original value — a truncated trailing record is discarded, never corrupted. -/
theorem claim_prefix_subset (S : Tlv) (m : Nat)
    (hlen : ∀ p ∈ S.data, p.2.length ≤ 255) :
    ∀ kv ∈ (Tlv.deserialize ((Tlv.serialize S).take m)).data, kv ∈ S.data := by
  intro kv hkv
  have hser := Tlv.serialize_eq_encodeRaw S
  rw [hser] at hkv
  have hvl : ∀ p ∈ S.data.map (fun p => (p.1.toByte, p.2)), p.2.length ≤ 255 := by
    intro p hp
    obtain ⟨q, hq, rfl⟩ := List.mem_map.mp hp
    exact hlen q hq
  have hmem := Tlv.deserLoop_take_subset (S.data.map (fun p => (p.1.toByte, p.2)))
    [] [] (((encodeRaw (S.data.map (fun p => (p.1.toByte, p.2)))).take m).length + 1)
    m (by omega) hvl kv hkv
  rcases hmem with hin | hin
  · exact absurd hin (List.not_mem_nil kv)
  · obtain ⟨q, hq, heq⟩ := List.mem_map.mp hin
    injection heq with h1' h2'
    have hqkv : q = kv := Prod.ext (TlvKey.toByte_inj h1') h2'
    exact hqkv ▸ hq

theorem claim_prefix_subset_witness :
    (TlvKey.MsgName, [65]) ∈
      (Tlv.mk [(TlvKey.MsgName, [65]), (TlvKey.QrCodeData, [66, 67])]).data :=
  claim_prefix_subset ⟨[(TlvKey.MsgName, [65]), (TlvKey.QrCodeData, [66, 67])]⟩ 4
    (by decide) (TlvKey.MsgName, [65]) (by decide)

/-- **C8**: `connect` and `disconnect` are idempotent on the link state: after
a successful `connect` the link is `Connected` (`tcp.isSome`) and a second
`connect` is a no-op returning the same state; `disconnect` twice equals
`disconnect` once, and `disconnect`'s error component is always `none`. -/
theorem claim_connect_disconnect_idempotent :
    (∀ (v : VtkM) (c c' : Except String Nat) (w w' : Except String Unit),
      (VtkM.connectM v c w).2 = none →
      VtkM.connectM (VtkM.connectM v c w).1 c' w' = ((VtkM.connectM v c w).1, none) ∧
        (VtkM.connectM v c w).1.tcp.isSome = true) ∧
    (∀ (v : VtkM) (s s' : Except String Unit),
      VtkM.disconnectM (VtkM.disconnectM v s).1 s' = VtkM.disconnectM v s) ∧
    (∀ (v : VtkM) (s : Except String Unit), (VtkM.disconnectM v s).2 = none) := by
  refine ⟨?_, ?_, ?_⟩
  · intro v c c' w w' hok
    have hsome := VtkM.connectM_ok_isSome hok
    exact ⟨VtkM.connectM_of_isSome hsome c' w', hsome⟩
  · intro v s s'
    unfold VtkM.disconnectM
    cases v.tcp <;> rfl
  · intro v s
    unfold VtkM.disconnectM
    cases v.tcp <;> rfl

theorem claim_connect_disconnect_idempotent_witness :
    (VtkM.connectM (VtkM.connectM ⟨[], 0, none⟩ (.ok 1) (.ok ())).1 (.ok 2) (.ok ()) =
      ((VtkM.connectM ⟨[], 0, none⟩ (.ok 1) (.ok ())).1, none)) ∧
    VtkM.disconnectM (VtkM.disconnectM ⟨[], 0, some 1⟩ (.ok ())).1 (.error "x") =
      VtkM.disconnectM ⟨[], 0, some 1⟩ (.ok ()) :=
  ⟨(claim_connect_disconnect_idempotent.1 ⟨[], 0, none⟩ (.ok 1) (.ok 2) (.ok ())
      (.ok ()) (by decide)).1,
    claim_connect_disconnect_idempotent.2.1 ⟨[], 0, some 1⟩ (.ok ()) (.error "x")⟩

/-- **C9**: after every successful `idle` the link is `Disconnected` (`idle`
disconnects again after the exchange), while after every successful `disable`
the link is still `Connected` (`disable` never disconnects after sending). -/
theorem claim_idle_disconnects_disable_not (v : VtkM) (add : Option Tlv)
    (io : ExchEnv) :
    ((VtkM.idle v add io).2 = none → (VtkM.idle v add io).1.tcp = none) ∧
    ((VtkM.disable v io).2 = none → (VtkM.disable v io).1.tcp.isSome = true) := by
  constructor
  · unfold VtkM.idle
    generalize (match add with
      | some t => t
      | none => Tlv.new) = t0
    intro hok
    rcases hs : ((v.disconnectM io.sd1).1).sendOp idlBytes t0
        io.sendConn io.sendWtmo io.wr with ⟨v2, e2⟩
    rw [hs] at hok
    cases e2 with
    | some e =>
      have h1 : (some e : Option String) = none := hok
      exact Option.noConfusion h1
    | none =>
      have hok2 : (match v2.receiveOp io.recvConn io.recvWtmo io.rtmo io.rd with
        | (v3, Except.error e) => (v3, some e)
        | (v3, Except.ok _) => ((v3.disconnectM io.sd2).1, none)).2 = none := hok
      show (match v2.receiveOp io.recvConn io.recvWtmo io.rtmo io.rd with
        | (v3, Except.error e) => (v3, some e)
        | (v3, Except.ok _) => ((v3.disconnectM io.sd2).1, none)).1.tcp = none
      rcases hr : v2.receiveOp io.recvConn io.recvWtmo io.rtmo io.rd with ⟨v3, r3⟩
      rw [hr] at hok2
      cases r3 with
      | error e =>
        have h1 : (some e : Option String) = none := hok2
        exact Option.noConfusion h1
      | ok t3 => exact VtkM.disconnectM_fst_tcp v3 io.sd2
  · unfold VtkM.disable
    intro hok
    rcases hs : ((v.disconnectM io.sd1).1).sendOp disBytes Tlv.new
        io.sendConn io.sendWtmo io.wr with ⟨v2, e2⟩
    rw [hs] at hok
    cases e2 with
    | some e =>
      have h1 : (some e : Option String) = none := hok
      exact Option.noConfusion h1
    | none =>
      have hv2 : v2.tcp.isSome = true := by
        have h2 := @VtkM.sendOp_ok_isSome ((v.disconnectM io.sd1).1)
          disBytes Tlv.new io.sendConn io.sendWtmo io.wr (by rw [hs])
        rw [hs] at h2
        exact h2
      have hok2 : (match v2.receiveOp io.recvConn io.recvWtmo io.rtmo io.rd with
        | (v3, Except.error e) => (v3, some e)
        | (v3, Except.ok _) => (v3, none)).2 = none := hok
      show (match v2.receiveOp io.recvConn io.recvWtmo io.rtmo io.rd with
        | (v3, Except.error e) => (v3, some e)
        | (v3, Except.ok _) => (v3, none)).1.tcp.isSome = true
      rcases hr : v2.receiveOp io.recvConn io.recvWtmo io.rtmo io.rd with ⟨v3, r3⟩
      rw [hr] at hok2
      have hv3 : v3 = v2 := by
        have hfst := VtkM.receiveOp_fst v2 io.recvConn io.recvWtmo io.rtmo io.rd
        rw [hr, VtkM.connectM_of_isSome hv2] at hfst
        exact hfst
      cases r3 with
      | error e =>
        have h1 : (some e : Option String) = none := hok2
        exact Option.noConfusion h1
      | ok t3 =>
        show v3.tcp.isSome = true
        rw [hv3]
        exact hv2

theorem claim_idle_disconnects_disable_not_witness :
    (VtkM.idle ⟨[], 0, none⟩ none
      ⟨.ok (), .ok 7, .ok (), .ok (), .ok 8, .ok (), .ok (),
        .ok [0, 7, 0x96, 0xFB, 1, 1, 65, 0, 0], .ok ()⟩).1.tcp = none ∧
    (VtkM.disable ⟨[], 0, none⟩
      ⟨.ok (), .ok 7, .ok (), .ok (), .ok 8, .ok (), .ok (),
        .ok [0, 7, 0x96, 0xFB, 1, 1, 65, 0, 0], .ok ()⟩).1.tcp.isSome = true :=
  ⟨(claim_idle_disconnects_disable_not ⟨[], 0, none⟩ none
      ⟨.ok (), .ok 7, .ok (), .ok (), .ok 8, .ok (), .ok (),
        .ok [0, 7, 0x96, 0xFB, 1, 1, 65, 0, 0], .ok ()⟩).1 (by decide),
   (claim_idle_disconnects_disable_not ⟨[], 0, none⟩ none
      ⟨.ok (), .ok 7, .ok (), .ok (), .ok 8, .ok (), .ok (),
        .ok [0, 7, 0x96, 0xFB, 1, 1, 65, 0, 0], .ok ()⟩).2 (by decide)⟩

theorem lastValue_append_single (xs : List (Nat × List Nat)) (tb : Nat)
    (v : List Nat) : lastValue (xs ++ [(tb, v)]) tb = some v := by
  induction xs with
  | nil => simp [lastValue]
  | cons hd tl ih =>
    show lastValue (hd :: (tl ++ [(tb, v)])) tb = some v
    unfold lastValue
    rw [ih]

/-- **C10**: whatever extra record set the caller passes to `idle` — even one
that already binds `MsgName` — the payload that `send` serializes carries
`MsgName = "IDL"`: `send` unconditionally overwrites the caller's `MsgName`
binding, as decoding the sent payload shows. -/
theorem claim_send_overwrites_msgname (t : Tlv)
    (hlen : ∀ p ∈ t.data, p.2.length ≤ 255) :
    Tlv.get_bin (Tlv.deserialize (Vtk.sendPayload idlBytes t)) TlvKey.MsgName =
      some idlBytes := by
  have hlen2 : ∀ p ∈ (t.set_bin TlvKey.MsgName idlBytes).data, p.2.length ≤ 255 := by
    intro p hp
    rcases mem_mapInsert hp with he | he
    · rw [he]
      decide
    · exact hlen p he
  have hvl : ∀ p ∈ (t.set_bin TlvKey.MsgName idlBytes).data.map
      (fun p => (p.1.toByte, p.2)), p.2.length ≤ 255 := by
    intro p hp
    obtain ⟨q, hq, rfl⟩ := List.mem_map.mp hp
    exact hlen2 q hq
  have hser := Tlv.serialize_eq_encodeRaw (t.set_bin TlvKey.MsgName idlBytes)
  have hd := Tlv.deserialize_encodeRaw _ hvl
  show Tlv.get_bin (Tlv.deserialize
    (Tlv.serialize (t.set_bin TlvKey.MsgName idlBytes))) TlvKey.MsgName =
    some idlBytes
  rw [hser, hd]
  show mapGet (foldDecode ((t.set_bin TlvKey.MsgName idlBytes).data.map
    (fun p => (p.1.toByte, p.2))) []) TlvKey.MsgName = some idlBytes
  rw [mapGet_foldDecode]
  have hshape : (t.set_bin TlvKey.MsgName idlBytes).data.map
      (fun p => (p.1.toByte, p.2)) =
      (t.data.filter (fun p => p.1 != TlvKey.MsgName)).map
        (fun p => (p.1.toByte, p.2)) ++ [(TlvKey.MsgName.toByte, idlBytes)] := by
    show (mapInsert TlvKey.MsgName idlBytes t.data).map (fun p => (p.1.toByte, p.2)) = _
    unfold mapInsert
    rw [List.map_append]
    rfl
  rw [hshape, lastValue_append_single]

theorem claim_send_overwrites_msgname_witness :
    Tlv.get_bin (Tlv.deserialize
      (Vtk.sendPayload idlBytes ⟨[(TlvKey.MsgName, [88, 89])]⟩)) TlvKey.MsgName =
      some idlBytes :=
  claim_send_overwrites_msgname ⟨[(TlvKey.MsgName, [88, 89])]⟩ (by decide)
